import Mathlib

/-!
Shallow embedding of the flexihash consistent-hash ring (`src/lib.rs`).

Modelling choices, kept faithful to the Rust source:

* `Position = u128` becomes `Nat`.  The program never does arithmetic on
  positions (only comparisons and equality), so no wraparound modelling is
  needed.
* `BTreeMap<Position, Target>` becomes an association list kept sorted by
  strictly increasing key; `btreeInsert` replaces the value at an existing
  key, exactly like `BTreeMap::insert`, and iteration of the map is the
  list itself (ascending key order, which is what `BTreeMap::iter` gives).
* `HashMap<Target, Vec<Position>>` becomes an association list;
  `hmInsert` replaces in place or appends, `hmRemove` deletes the entry.
  The ring only ever observes the hash map through `contains_key`, `get`,
  `len`, `insert`, `remove` and (for `get_all_targets`, which sorts, and
  the one-element fast path of `lookup_list`) iteration, so the list order
  stands in for the unspecified iteration order without loss.
* `Hasher::Crc32` and `Hasher::Md5` delegate to external checksum crates
  (collaborators per the design); each is modelled as an unspecified pure
  function carried in the constructor.  `Hasher::Mock(val)` stores a
  decimal string and parses it at hash time with `from_str_radix(val, 10)`;
  we carry the already-parsed value, which is exact for every valid decimal
  literal the program uses.
* A Rust `panic!` is modelled as returning `Except.error e` where `e`
  records which panic fired and the target name interpolated into the
  message; since the embedded operations are pure functions, an error
  result leaves the caller's state untouched, matching a panic raised
  before any mutation.
-/

abbrev Position : Type := Nat
abbrev Target : Type := String
abbrev Resource : Type := String

/-- The source's `Hasher` enum.  `crc32` and `md5` carry the external
checksum function they delegate to; `mock` carries the parsed decimal
value that `Hasher::Mock` returns for every input. -/
inductive Hasher where
  | crc32 (f : String → Position)
  | md5 (f : String → Position)
  | mock (val : Position)

/-- Source function `pub fn hash(hasher: &Hasher, value: S) -> Position`. -/
def hash (hasher : Hasher) (value : String) : Position :=
  match hasher with
  | .crc32 f => f value
  | .md5 f => f value
  | .mock val => val

/-- Lookup in an association list (`BTreeMap`/`HashMap` read). -/
def listGet {α β : Type} [DecidableEq α] (m : List (α × β)) (k : α) : Option β :=
  match m with
  | [] => none
  | (k', v) :: rest => if k = k' then some v else listGet rest k

/-- Models `HashMap::contains_key`. -/
def containsKey {α β : Type} [DecidableEq α] (m : List (α × β)) (k : α) : Bool :=
  (listGet m k).isSome

/-- Models `BTreeMap::insert` on the sorted association list: insert at the sorted
place, replacing the value when the key is already present. -/
def btreeInsert (k : Position) (v : Target) :
    List (Position × Target) → List (Position × Target)
  | [] => [(k, v)]
  | (k', v') :: rest =>
    if k < k' then (k, v) :: (k', v') :: rest
    else if k = k' then (k, v) :: rest
    else (k', v') :: btreeInsert k v rest

/-- Models `BTreeMap::remove`: drop the entry carrying key `k` (keys are unique in
every map the program builds). -/
def btreeRemove (k : Position) :
    List (Position × Target) → List (Position × Target)
  | [] => []
  | (k', v') :: rest => if k = k' then rest else (k', v') :: btreeRemove k rest

/-- Models `HashMap::insert`: replace in place, or append a fresh key. -/
def hmInsert {β : Type} (m : List (Target × β)) (k : Target) (v : β) :
    List (Target × β) :=
  match m with
  | [] => [(k, v)]
  | (k', v') :: rest => if k' = k then (k, v) :: rest else (k', v') :: hmInsert rest k v

/-- Models `HashMap::remove`: drop the entry carrying key `k`. -/
def hmRemove {β : Type} (m : List (Target × β)) (k : Target) :
    List (Target × β) :=
  match m with
  | [] => []
  | (k', v') :: rest => if k' = k then rest else (k', v') :: hmRemove rest k

/-- Panic outcomes of the public operations, with the target name the
panic message interpolates. -/
inductive FlexiError where
  | duplicateTarget (target : Target)
  | unknownTarget (target : Target)
  | invalidCount
  | emptyRing
deriving DecidableEq

/-- Source struct `pub struct Flexihash` (`src/lib.rs`). -/
structure Flexihash where
  replicas : Nat
  hasher : Hasher
  position_to_target : List (Position × Target)
  sorted_position_to_target : List (Position × Target)
  target_to_positions : List (Target × List Position)

/-- Source `Flexihash::new()`: CRC32 hasher (an external collaborator, passed in
as the function it computes), 64 replicas, all indexes empty. -/
def Flexihash.new (crc32fn : String → Position) : Flexihash :=
  { hasher := .crc32 crc32fn
    replicas := 64
    position_to_target := []
    sorted_position_to_target := []
    target_to_positions := [] }

/-- Source `Flexihash::set_hasher`. -/
def Flexihash.set_hasher (fh : Flexihash) (hasher : Hasher) : Flexihash :=
  { fh with hasher := hasher }

/-- Source `Flexihash::set_replicas`. -/
def Flexihash.set_replicas (fh : Flexihash) (replicas : Nat) : Flexihash :=
  { fh with replicas := replicas }

/-- Source `Flexihash::add_target`.  The source's loop pushes
`hash(hasher, format!("{}{}", target, i))` onto `positions` and inserts it
into `position_to_target` for `i = 0, 1, …, replicas*weight - 1`, then
rebuilds `sorted_position_to_target` from the map's (ascending) iterator
and records `positions` in `target_to_positions`; the position computation
is pure, so the push-and-insert loop is the map over `List.range` followed
by the fold of inserts, in the same generation order. -/
def Flexihash.add_target (fh : Flexihash) (target : Target) (weight : Nat) :
    Except FlexiError Flexihash :=
  if containsKey fh.target_to_positions target then
    .error (.duplicateTarget target)
  else
    let positions := (List.range (fh.replicas * weight)).map
      (fun i => hash fh.hasher (target ++ toString i))
    let ptt := positions.foldl (fun m p => btreeInsert p target m) fh.position_to_target
    .ok { fh with
      position_to_target := ptt
      sorted_position_to_target := ptt
      target_to_positions := hmInsert fh.target_to_positions target positions }

/-- Source `Flexihash::add_targets`: sequential `add_target` with weight 1,
propagating the first failure. -/
def Flexihash.add_targets : Flexihash → List Target → Except FlexiError Flexihash
  | fh, [] => .ok fh
  | fh, t :: rest =>
    match fh.add_target t 1 with
    | .ok fh' => Flexihash.add_targets fh' rest
    | .error e => .error e

/-- Source `Flexihash::remove_target`.  For every position recorded for `target`
in the registry the source calls `self.position_to_target.remove(position)`
unconditionally (no check that the position still maps to `target`), then
rebuilds the sorted vector and drops the registry entry. -/
def Flexihash.remove_target (fh : Flexihash) (target : Target) :
    Except FlexiError Flexihash :=
  match listGet fh.target_to_positions target with
  | some position_list =>
    let ptt := position_list.foldl (fun m p => btreeRemove p m) fh.position_to_target
    .ok { fh with
      position_to_target := ptt
      sorted_position_to_target := ptt
      target_to_positions := hmRemove fh.target_to_positions target }
  | none => .error (.unknownTarget target)

/-- Source `Flexihash::get_all_targets`: every registry key, sorted.  The source
pushes the keys and calls `Vec::sort`; insertion sort computes the same
sorted list. -/
def Flexihash.get_all_targets (fh : Flexihash) : List Target :=
  List.insertionSort (fun a b => a ≤ b) (fh.target_to_positions.map Prod.fst)

/-- The offset computation of `lookup_list`: the source calls
`binary_search(&(resource_position, String::new()))` on the sorted vector
and keeps the index from both the `Ok` and the `Err` outcome.  On a vector
whose positions are strictly increasing (an invariant of every reachable
ring, proved below) both outcomes are the index of the first entry whose
position is `≥` the probe, because the empty string is minimal in the
lexicographic tuple order. -/
def lowerBound (p : Position) : List (Position × Target) → Nat
  | [] => 0
  | (k, _) :: rest => if p ≤ k then 0 else lowerBound p rest + 1

/-- The collection loop of `lookup_list`: scan the (already rotated)
entries, appending each target not yet collected, and stop as soon as
`requested_count` or `n_targets` distinct targets are collected. -/
def collect (requested n_targets : Nat) :
    List (Position × Target) → List Target → List Target
  | [], results => results
  | (_, target) :: rest, results =>
    if results.contains target then collect requested n_targets rest results
    else
      let results' := results ++ [target]
      if results'.length = requested ∨ results'.length = n_targets then results'
      else collect requested n_targets rest results'

/-- Source `Flexihash::lookup_list`.  The source checks `requested_count == 0`
(panic), then `target_to_positions.len()` — `0` returns the empty vector,
`1` returns the registry's only key — and otherwise hashes the resource,
binary-searches the sorted vector for the walk start and scans indices
`(offset..len).chain(0..offset)`, i.e. the rotation
`drop offset ++ take offset`, collecting distinct targets. -/
def Flexihash.lookup_list (fh : Flexihash) (resource : Resource)
    (requested_count : Nat) : Except FlexiError (List Target) :=
  if requested_count = 0 then .error .invalidCount
  else
    match fh.target_to_positions with
    | [] => .ok []
    | [(k, _)] => .ok [k]
    | _ =>
      let resource_position := hash fh.hasher resource
      let n_targets := fh.target_to_positions.length
      let offset := lowerBound resource_position fh.sorted_position_to_target
      let rotated := fh.sorted_position_to_target.drop offset ++
        fh.sorted_position_to_target.take offset
      .ok (collect requested_count n_targets rotated [])

/-- Source `Flexihash::lookup`: first element of `lookup_list(resource, 1)`,
panicking (`No targets set`) when that list is empty. -/
def Flexihash.lookup (fh : Flexihash) (resource : Resource) :
    Except FlexiError Target :=
  match fh.lookup_list resource 1 with
  | .ok targets =>
    match targets.head? with
    | some target => .ok target
    | none => .error .emptyRing
  | .error e => .error e


/-- Strictly-increasing-keys invariant of the sorted association list that
models `BTreeMap<Position, Target>`. -/
def RingSorted (m : List (Position × Target)) : Prop :=
  m.Pairwise (fun a b => a.1 < b.1)

/-!
## Ring invariant and reachable states
-/

/-- Invariant of every ring state the public operations can produce:
the sorted vector is the (ascending) enumeration of the ring index, the
ring index has strictly increasing keys, the registry has no duplicate
keys, and every ring-index entry's target owns that position in its
registry entry. -/
structure RingInv (fh : Flexihash) : Prop where
  vec_eq : fh.sorted_position_to_target = fh.position_to_target
  ring_sorted : RingSorted fh.position_to_target
  reg_nodup : (fh.target_to_positions.map Prod.fst).Nodup
  ring_reg : ∀ p t, listGet fh.position_to_target p = some t →
    ∃ ps, listGet fh.target_to_positions t = some ps ∧ p ∈ ps

/-- States reachable through the public interface: construction,
reconfiguration, and the successful mutating operations. -/
inductive Reachable : Flexihash → Prop where
  | new (crc32fn : String → Position) : Reachable (Flexihash.new crc32fn)
  | set_hasher {fh : Flexihash} (h : Hasher) :
      Reachable fh → Reachable (fh.set_hasher h)
  | set_replicas {fh : Flexihash} (n : Nat) :
      Reachable fh → Reachable (fh.set_replicas n)
  | add_target {fh fh' : Flexihash} (t : Target) (w : Nat) :
      Reachable fh → fh.add_target t w = .ok fh' → Reachable fh'
  | add_targets {fh fh' : Flexihash} (ts : List Target) :
      Reachable fh → fh.add_targets ts = .ok fh' → Reachable fh'
  | remove_target {fh fh' : Flexihash} (t : Target) :
      Reachable fh → fh.remove_target t = .ok fh' → Reachable fh'

/-- Number of distinct targets among `entries` that are not already in the
accumulator `acc` of the collection walk. -/
def newCount (acc : List Target) (entries : List (Position × Target)) : Nat :=
  ((entries.map Prod.snd).toFinset \ acc.toFinset).card

/-- Number of distinct targets that occur as values of the ring index
(targets whose every replica position was overwritten by a collision do
not occur, even though they stay registered). -/
def Flexihash.ringTargetCount (fh : Flexihash) : Nat :=
  ((fh.position_to_target.map Prod.snd).toFinset).card

/-!
## Concrete scenario states

These states are built only through the public operations, mirroring the
source's unit tests: a mock hasher pinned to literal positions, one
replica per target.
-/

/-- Stand-in for the external CRC32 collaborator in concrete scenarios
(replaced via `set_hasher` before it is ever consulted). -/
def zeroHash : String → Position := fun _ => 0

/-- Unwrap a successful operation result (all scenario operations below
succeed; the fallback is never reached). -/
def getOk (e : Except FlexiError Flexihash) (fallback : Flexihash) : Flexihash :=
  match e with
  | .ok fh => fh
  | .error _ => fallback

/-- Fresh ring, one replica per target, mock hasher pinned to 10. -/
def st0 : Flexihash :=
  ((Flexihash.new zeroHash).set_replicas 1).set_hasher (.mock 10)

/-- Target `t1` added at position 10. -/
def s1 : Flexihash := getOk (st0.add_target "t1" 1) st0

/-- Target `t2` added while the mock hasher still returns 10: its one
replica collides with and overwrites `t1`'s only ring entry. -/
def s2c : Flexihash := getOk (s1.add_target "t2" 1) st0

/-- Result of removing `t1` from the collided state `s2c`. -/
def s2cRemoved : Flexihash := getOk (s2c.remove_target "t1") st0

/-- Target `t3` added to `s2c`, again at position 10 (overwrites `t2`). -/
def s3c : Flexihash := getOk (s2c.add_target "t3" 1) st0

/-- Result of removing `t3` from `s3c`: its registry entry `[10]` clears
the only ring entry, leaving `t1` and `t2` registered but the ring index
empty. -/
def ghostRingFh : Flexihash := getOk (s3c.remove_target "t3") st0

/-- The wraparound scenario of the source's
`get_multiple_targets_needing_to_loop_to_start` test: `t1..t5` at
positions `10,20,30,40,50`, hasher then pinned to 35. -/
def scenario5 : Flexihash :=
  let a1 := getOk (st0.add_target "t1" 1) st0
  let a2 := getOk ((a1.set_hasher (.mock 20)).add_target "t2" 1) st0
  let a3 := getOk ((a2.set_hasher (.mock 30)).add_target "t3" 1) st0
  let a4 := getOk ((a3.set_hasher (.mock 40)).add_target "t4" 1) st0
  let a5 := getOk ((a4.set_hasher (.mock 50)).add_target "t5" 1) st0
  a5.set_hasher (.mock 35)

/-!
## Basic lemmas about the map embeddings
-/

theorem listGet_btreeInsert (k : Position) (v : Target)
    (m : List (Position × Target)) (p : Position) :
    listGet (btreeInsert k v m) p = if p = k then some v else listGet m p := by
  induction m with
  | nil => simp [btreeInsert, listGet]
  | cons hd tl ih =>
    obtain ⟨k', v'⟩ := hd
    by_cases h1 : k < k'
    · simp [btreeInsert, h1, listGet]
    · by_cases h2 : k = k'
      · subst h2
        by_cases hp : p = k <;> simp [btreeInsert, h1, listGet, hp]
      · by_cases hp : p = k'
        · subst hp
          have hpk : ¬ p = k := fun h => h2 h.symm
          simp [btreeInsert, h1, h2, listGet, hpk]
        · simp [btreeInsert, h1, h2, listGet, hp, ih]

theorem listGet_foldl_btreeInsert (t : Target) (ps : List Position)
    (m : List (Position × Target)) (p : Position) :
    listGet (ps.foldl (fun acc q => btreeInsert q t acc) m) p =
      if p ∈ ps then some t else listGet m p := by
  induction ps generalizing m with
  | nil => simp
  | cons q rest ih =>
    simp only [List.foldl_cons]
    rw [ih]
    by_cases hp : p ∈ rest
    · simp [hp]
    · by_cases hq : p = q <;> simp [hp, hq, listGet_btreeInsert]

theorem mem_btreeInsert {k : Position} {v : Target} {m : List (Position × Target)}
    {x : Position × Target} (h : x ∈ btreeInsert k v m) : x = (k, v) ∨ x ∈ m := by
  induction m with
  | nil => simpa [btreeInsert] using h
  | cons hd tl ih =>
    obtain ⟨k', v'⟩ := hd
    by_cases h1 : k < k'
    · simp only [btreeInsert, if_pos h1, List.mem_cons] at h
      rcases h with h | h | h
      · exact Or.inl h
      · exact Or.inr (by simp [h])
      · exact Or.inr (List.mem_cons_of_mem _ h)
    · by_cases h2 : k = k'
      · simp only [btreeInsert, if_neg h1, if_pos h2, List.mem_cons] at h
        rcases h with h | h
        · exact Or.inl h
        · exact Or.inr (List.mem_cons_of_mem _ h)
      · simp only [btreeInsert, if_neg h1, if_neg h2, List.mem_cons] at h
        rcases h with h | h
        · exact Or.inr (by simp [h])
        · rcases ih h with h' | h'
          · exact Or.inl h'
          · exact Or.inr (List.mem_cons_of_mem _ h')


theorem btreeInsert_sorted {k : Position} {v : Target} {m : List (Position × Target)}
    (h : RingSorted m) : RingSorted (btreeInsert k v m) := by
  induction m with
  | nil => simp [RingSorted, btreeInsert]
  | cons hd tl ih =>
    obtain ⟨k', v'⟩ := hd
    rw [RingSorted, List.pairwise_cons] at h
    obtain ⟨hhead, htl⟩ := h
    by_cases h1 : k < k'
    · rw [RingSorted, btreeInsert]
      simp only [if_pos h1]
      refine List.Pairwise.cons ?_ (List.Pairwise.cons hhead htl)
      intro y hy
      rcases List.mem_cons.mp hy with rfl | hy'
      · exact h1
      · exact lt_trans h1 (hhead y hy')
    · by_cases h2 : k = k'
      · subst h2
        rw [RingSorted, btreeInsert]
        simp only [if_neg h1, if_pos rfl]
        exact List.Pairwise.cons hhead htl
      · rw [RingSorted, btreeInsert]
        simp only [if_neg h1, if_neg h2]
        refine List.Pairwise.cons ?_ (ih htl)
        intro y hy
        rcases mem_btreeInsert hy with rfl | hy'
        · exact lt_of_le_of_ne (not_lt.mp h1) (fun h => h2 h.symm)
        · exact hhead y hy'

theorem foldl_btreeInsert_sorted {t : Target} {ps : List Position}
    {m : List (Position × Target)} (h : RingSorted m) :
    RingSorted (ps.foldl (fun acc q => btreeInsert q t acc) m) := by
  induction ps generalizing m with
  | nil => exact h
  | cons q rest ih => exact ih (btreeInsert_sorted h)

theorem btreeRemove_sublist (k : Position) (m : List (Position × Target)) :
    (btreeRemove k m).Sublist m := by
  induction m with
  | nil => simp [btreeRemove]
  | cons hd tl ih =>
    obtain ⟨k', v'⟩ := hd
    rw [btreeRemove]
    by_cases h : k = k'
    · rw [if_pos h]
      exact List.sublist_cons_self (k', v') tl
    · rw [if_neg h]
      exact ih.cons₂ (k', v')

theorem foldl_btreeRemove_sublist (ps : List Position)
    (m : List (Position × Target)) :
    (ps.foldl (fun acc q => btreeRemove q acc) m).Sublist m := by
  induction ps generalizing m with
  | nil => simp
  | cons q rest ih =>
    simp only [List.foldl_cons]
    exact (ih (btreeRemove q m)).trans (btreeRemove_sublist q m)

theorem listGet_eq_none_of_not_mem {α β : Type} [DecidableEq α]
    {m : List (α × β)} {k : α} (h : k ∉ m.map Prod.fst) : listGet m k = none := by
  induction m with
  | nil => rfl
  | cons hd tl ih =>
    obtain ⟨k', v'⟩ := hd
    simp only [List.map_cons, List.mem_cons] at h
    push_neg at h
    rw [listGet, if_neg h.1]
    exact ih h.2

theorem mem_keys_of_listGet {α β : Type} [DecidableEq α]
    {m : List (α × β)} {k : α} {v : β} (h : listGet m k = some v) :
    k ∈ m.map Prod.fst := by
  induction m with
  | nil => simp [listGet] at h
  | cons hd tl ih =>
    obtain ⟨k', v'⟩ := hd
    rw [listGet] at h
    by_cases hk : k = k'
    · simp [hk]
    · rw [if_neg hk] at h
      simp [ih h]

theorem listGet_of_mem {α β : Type} [DecidableEq α]
    {m : List (α × β)} {k : α} {v : β}
    (hnd : (m.map Prod.fst).Nodup) (h : (k, v) ∈ m) : listGet m k = some v := by
  induction m with
  | nil => simp at h
  | cons hd tl ih =>
    obtain ⟨k', v'⟩ := hd
    simp only [List.map_cons, List.nodup_cons] at hnd
    rcases List.mem_cons.mp h with h' | h'
    · obtain ⟨rfl, rfl⟩ := Prod.mk.injEq .. ▸ h'
      simp [listGet]
    · have hk : k ≠ k' := by
        rintro rfl
        exact hnd.1 (List.mem_map.mpr ⟨(k, v), h', rfl⟩)
      rw [listGet, if_neg hk]
      exact ih hnd.2 h'

theorem listGet_btreeRemove {k : Position} {m : List (Position × Target)}
    {p : Position} (hnd : (m.map Prod.fst).Nodup) :
    listGet (btreeRemove k m) p = if p = k then none else listGet m p := by
  induction m with
  | nil => simp [btreeRemove, listGet]
  | cons hd tl ih =>
    obtain ⟨k', v'⟩ := hd
    simp only [List.map_cons, List.nodup_cons] at hnd
    obtain ⟨hk', hnd'⟩ := hnd
    rw [btreeRemove]
    by_cases h1 : k = k'
    · subst h1
      rw [if_pos rfl]
      by_cases hp : p = k
      · subst hp
        simp [listGet_eq_none_of_not_mem hk']
      · simp [listGet, hp]
    · rw [if_neg h1, listGet]
      by_cases hp : p = k'
      · subst hp
        have hpk : ¬ p = k := fun h => h1 h.symm
        simp [listGet, hpk]
      · rw [if_neg hp, ih hnd', listGet, if_neg hp]

theorem listGet_foldl_btreeRemove (ps : List Position)
    {m : List (Position × Target)} (p : Position)
    (hnd : (m.map Prod.fst).Nodup) :
    listGet (ps.foldl (fun acc q => btreeRemove q acc) m) p =
      if p ∈ ps then none else listGet m p := by
  induction ps generalizing m with
  | nil => simp
  | cons q rest ih =>
    simp only [List.foldl_cons]
    have hnd' : ((btreeRemove q m).map Prod.fst).Nodup :=
      hnd.sublist ((btreeRemove_sublist q m).map Prod.fst)
    rw [ih hnd']
    by_cases hp : p ∈ rest
    · simp [hp]
    · by_cases hq : p = q <;> simp [hp, hq, listGet_btreeRemove hnd]

theorem listGet_hmInsert {β : Type} (m : List (Target × β)) (k : Target)
    (v : β) (k' : Target) :
    listGet (hmInsert m k v) k' = if k' = k then some v else listGet m k' := by
  induction m with
  | nil => simp [hmInsert, listGet]
  | cons hd tl ih =>
    obtain ⟨k0, v0⟩ := hd
    rw [hmInsert]
    by_cases h0 : k0 = k
    · subst h0
      by_cases hk : k' = k0 <;> simp [listGet, hk]
    · rw [if_neg h0, listGet, listGet]
      by_cases hk : k' = k0
      · subst hk
        simp [h0]
      · simp [hk, ih]

theorem hmInsert_map_fst_of_not_mem {β : Type} {m : List (Target × β)}
    {k : Target} (v : β) (h : k ∉ m.map Prod.fst) :
    (hmInsert m k v).map Prod.fst = m.map Prod.fst ++ [k] := by
  induction m with
  | nil => simp [hmInsert]
  | cons hd tl ih =>
    obtain ⟨k0, v0⟩ := hd
    simp only [List.map_cons, List.mem_cons] at h
    push_neg at h
    have h0 : ¬ k0 = k := fun hh => h.1 hh.symm
    rw [hmInsert, if_neg h0]
    simp [ih h.2]

theorem hmRemove_sublist {β : Type} (m : List (Target × β)) (k : Target) :
    (hmRemove m k).Sublist m := by
  induction m with
  | nil => simp [hmRemove]
  | cons hd tl ih =>
    obtain ⟨k0, v0⟩ := hd
    rw [hmRemove]
    by_cases h : k0 = k
    · rw [if_pos h]
      exact List.sublist_cons_self (k0, v0) tl
    · rw [if_neg h]
      exact ih.cons₂ (k0, v0)

theorem listGet_hmRemove {β : Type} {m : List (Target × β)} {k k' : Target}
    (hnd : (m.map Prod.fst).Nodup) :
    listGet (hmRemove m k) k' = if k' = k then none else listGet m k' := by
  induction m with
  | nil => simp [hmRemove, listGet]
  | cons hd tl ih =>
    obtain ⟨k0, v0⟩ := hd
    simp only [List.map_cons, List.nodup_cons] at hnd
    obtain ⟨hk0, hnd'⟩ := hnd
    rw [hmRemove]
    by_cases h0 : k0 = k
    · subst h0
      rw [if_pos rfl]
      by_cases hk : k' = k0
      · subst hk
        simp [listGet_eq_none_of_not_mem hk0]
      · simp [listGet, hk]
    · rw [if_neg h0, listGet, listGet]
      by_cases hk : k' = k0
      · subst hk
        simp [h0]
      · simp [hk, ih hnd']

theorem containsKey_iff {α β : Type} [DecidableEq α]
    (m : List (α × β)) (k : α) :
    containsKey m k = true ↔ k ∈ m.map Prod.fst := by
  induction m with
  | nil => simp [containsKey, listGet]
  | cons hd tl ih =>
    obtain ⟨k0, v0⟩ := hd
    by_cases h : k = k0
    · simp [containsKey, listGet, h]
    · simp only [containsKey, listGet, if_neg h, List.map_cons, List.mem_cons] at ih ⊢
      simp [ih, h]


theorem inv_new (crc32fn : String → Position) : RingInv (Flexihash.new crc32fn) := by
  refine ⟨rfl, ?_, ?_, ?_⟩
  · simp [Flexihash.new, RingSorted]
  · simp [Flexihash.new]
  · intro p t h
    simp [Flexihash.new, listGet] at h

theorem inv_set_hasher {fh : Flexihash} (h : Hasher) (hinv : RingInv fh) :
    RingInv (fh.set_hasher h) :=
  ⟨hinv.vec_eq, hinv.ring_sorted, hinv.reg_nodup, hinv.ring_reg⟩

theorem inv_set_replicas {fh : Flexihash} (n : Nat) (hinv : RingInv fh) :
    RingInv (fh.set_replicas n) :=
  ⟨hinv.vec_eq, hinv.ring_sorted, hinv.reg_nodup, hinv.ring_reg⟩

theorem add_target_ok {fh fh' : Flexihash} {t : Target} {w : Nat}
    (h : fh.add_target t w = .ok fh') :
    containsKey fh.target_to_positions t = false ∧
    fh' = { fh with
      position_to_target :=
        ((List.range (fh.replicas * w)).map
          (fun i => hash fh.hasher (t ++ toString i))).foldl
          (fun m p => btreeInsert p t m) fh.position_to_target
      sorted_position_to_target :=
        ((List.range (fh.replicas * w)).map
          (fun i => hash fh.hasher (t ++ toString i))).foldl
          (fun m p => btreeInsert p t m) fh.position_to_target
      target_to_positions := hmInsert fh.target_to_positions t
        ((List.range (fh.replicas * w)).map
          (fun i => hash fh.hasher (t ++ toString i))) } := by
  rw [Flexihash.add_target] at h
  by_cases hc : containsKey fh.target_to_positions t
  · rw [if_pos hc] at h
    exact absurd h (by simp)
  · rw [if_neg hc] at h
    simp only [Except.ok.injEq] at h
    exact ⟨by simpa using hc, h.symm⟩

theorem inv_add_target {fh fh' : Flexihash} {t : Target} {w : Nat}
    (hinv : RingInv fh) (h : fh.add_target t w = .ok fh') : RingInv fh' := by
  obtain ⟨hc, rfl⟩ := add_target_ok h
  have hcmem : t ∉ fh.target_to_positions.map Prod.fst := by
    intro hm
    rw [← containsKey_iff] at hm
    simp [hm] at hc
  refine ⟨rfl, ?_, ?_, ?_⟩
  · exact foldl_btreeInsert_sorted hinv.ring_sorted
  · rw [hmInsert_map_fst_of_not_mem _ hcmem]
    simp only [List.nodup_append, List.nodup_cons, List.not_mem_nil,
      not_false_eq_true, List.nodup_nil, and_self, List.disjoint_singleton]
    exact ⟨hinv.reg_nodup, by trivial, by simpa using hcmem⟩
  · intro p t' hget
    rw [listGet_foldl_btreeInsert] at hget
    by_cases hp : p ∈ (List.range (fh.replicas * w)).map
        (fun i => hash fh.hasher (t ++ toString i))
    · rw [if_pos hp, Option.some.injEq] at hget
      subst hget
      refine ⟨_, ?_, hp⟩
      rw [listGet_hmInsert, if_pos rfl]
    · rw [if_neg hp] at hget
      obtain ⟨ps, hps, hpmem⟩ := hinv.ring_reg p t' hget
      have ht' : t' ≠ t := by
        rintro rfl
        exact hcmem (mem_keys_of_listGet hps)
      exact ⟨ps, by rw [listGet_hmInsert, if_neg ht']; exact hps, hpmem⟩

theorem remove_target_ok {fh fh' : Flexihash} {t : Target}
    (h : fh.remove_target t = .ok fh') :
    ∃ ps, listGet fh.target_to_positions t = some ps ∧
    fh' = { fh with
      position_to_target :=
        ps.foldl (fun m p => btreeRemove p m) fh.position_to_target
      sorted_position_to_target :=
        ps.foldl (fun m p => btreeRemove p m) fh.position_to_target
      target_to_positions := hmRemove fh.target_to_positions t } := by
  rw [Flexihash.remove_target] at h
  cases hg : listGet fh.target_to_positions t with
  | none =>
    rw [hg] at h
    exact absurd h (by simp)
  | some ps =>
    rw [hg] at h
    simp only [Except.ok.injEq] at h
    exact ⟨ps, rfl, h.symm⟩

theorem ring_keys_nodup {m : List (Position × Target)} (h : RingSorted m) :
    (m.map Prod.fst).Nodup := by
  rw [List.Nodup, List.pairwise_map]
  exact h.imp (fun hlt => Nat.ne_of_lt hlt)

theorem inv_remove_target {fh fh' : Flexihash} {t : Target}
    (hinv : RingInv fh) (h : fh.remove_target t = .ok fh') : RingInv fh' := by
  obtain ⟨ps, hps, rfl⟩ := remove_target_ok h
  have hringnd : (fh.position_to_target.map Prod.fst).Nodup :=
    ring_keys_nodup hinv.ring_sorted
  refine ⟨rfl, ?_, ?_, ?_⟩
  · exact hinv.ring_sorted.sublist (foldl_btreeRemove_sublist ps fh.position_to_target)
  · exact hinv.reg_nodup.sublist ((hmRemove_sublist fh.target_to_positions t).map Prod.fst)
  · intro p t' hget
    rw [listGet_foldl_btreeRemove ps p hringnd] at hget
    by_cases hp : p ∈ ps
    · simp [hp] at hget
    · rw [if_neg hp] at hget
      obtain ⟨qs, hqs, hpmem⟩ := hinv.ring_reg p t' hget
      have ht' : t' ≠ t := by
        rintro rfl
        rw [hps, Option.some.injEq] at hqs
        exact hp (hqs ▸ hpmem)
      exact ⟨qs, by rw [listGet_hmRemove hinv.reg_nodup, if_neg ht']; exact hqs, hpmem⟩

theorem inv_add_targets {fh fh' : Flexihash} {ts : List Target}
    (hinv : RingInv fh) (h : fh.add_targets ts = .ok fh') : RingInv fh' := by
  induction ts generalizing fh with
  | nil =>
    rw [Flexihash.add_targets] at h
    simp only [Except.ok.injEq] at h
    exact h ▸ hinv
  | cons t rest ih =>
    rw [Flexihash.add_targets] at h
    cases ha : fh.add_target t 1 with
    | ok fh1 =>
      rw [ha] at h
      exact ih (inv_add_target hinv ha) h
    | error e =>
      rw [ha] at h
      exact absurd h (by simp)

/-- Every reachable ring state satisfies the invariant. -/
theorem reachable_inv {fh : Flexihash} (h : Reachable fh) : RingInv fh := by
  induction h with
  | new crc32fn => exact inv_new crc32fn
  | set_hasher hs _ ih => exact inv_set_hasher hs ih
  | set_replicas n _ ih => exact inv_set_replicas n ih
  | add_target t w _ hok ih => exact inv_add_target ih hok
  | add_targets ts _ hok ih => exact inv_add_targets ih hok
  | remove_target t _ hok ih => exact inv_remove_target ih hok

/-!
## The collection walk of `lookup_list`
-/


theorem newCount_nil (acc : List Target) : newCount acc [] = 0 := by
  simp [newCount]

theorem newCount_cons_mem {acc : List Target} {p : Position} {t : Target}
    {rest : List (Position × Target)} (h : t ∈ acc) :
    newCount acc ((p, t) :: rest) = newCount acc rest := by
  rw [newCount, newCount]
  simp only [List.map_cons, List.toFinset_cons]
  rw [Finset.insert_sdiff_of_mem _ (List.mem_toFinset.mpr h)]

theorem newCount_cons_not_mem {acc : List Target} {p : Position} {t : Target}
    {rest : List (Position × Target)} (h : t ∉ acc) :
    newCount acc ((p, t) :: rest) = newCount (acc ++ [t]) rest + 1 := by
  rw [newCount, newCount]
  simp only [List.map_cons, List.toFinset_cons, List.toFinset_append,
    List.toFinset_cons, List.toFinset_nil, insert_emptyc_eq]
  rw [Finset.insert_sdiff_of_not_mem _ (fun hc => h (List.mem_toFinset.mp hc))]
  have hunion : acc.toFinset ∪ {t} = insert t acc.toFinset := by
    rw [Finset.union_comm]
    rfl
  rw [hunion, Finset.sdiff_insert]
  set Y := (rest.map Prod.snd).toFinset \ acc.toFinset with hY
  by_cases hty : t ∈ Y
  · rw [Finset.insert_eq_self.mpr hty]
    exact (Finset.card_erase_add_one hty).symm
  · rw [Finset.erase_eq_of_not_mem hty]
    exact Finset.card_insert_of_not_mem hty

theorem collect_length (req nt : Nat) (entries : List (Position × Target)) :
    ∀ acc : List Target, acc.length < req →
      acc.length + newCount acc entries ≤ nt →
      (collect req nt entries acc).length =
        min req (acc.length + newCount acc entries) := by
  induction entries with
  | nil =>
    intro acc h1 h2
    rw [collect, newCount_nil]
    omega
  | cons hd rest ih =>
    obtain ⟨p, t⟩ := hd
    intro acc h1 h2
    by_cases hmem : t ∈ acc
    · have hcont : acc.contains t = true := by
        simpa using hmem
      rw [collect, if_pos hcont, newCount_cons_mem hmem]
      rw [newCount_cons_mem hmem] at h2
      exact ih acc h1 h2
    · have hcont : ¬ acc.contains t = true := by
        simpa using hmem
      rw [newCount_cons_not_mem hmem] at h2 ⊢
      rw [collect, if_neg hcont]
      simp only [List.length_append, List.length_cons, List.length_nil]
      by_cases hstop : acc.length + 1 = req ∨ acc.length + 1 = nt
      · rw [if_pos (by simpa using hstop)]
        simp only [List.length_append, List.length_cons, List.length_nil]
        omega
      · rw [if_neg (by simpa using hstop)]
        have h1' : (acc ++ [t]).length < req := by
          simp only [List.length_append, List.length_cons, List.length_nil]
          omega
        have h2' : (acc ++ [t]).length + newCount (acc ++ [t]) rest ≤ nt := by
          simp only [List.length_append, List.length_cons, List.length_nil]
          omega
        rw [ih (acc ++ [t]) h1' h2']
        simp only [List.length_append, List.length_cons, List.length_nil]
        omega

theorem collect_mem (req nt : Nat) (entries : List (Position × Target)) :
    ∀ (acc : List Target) (x : Target), x ∈ collect req nt entries acc →
      x ∈ acc ∨ x ∈ entries.map Prod.snd := by
  induction entries with
  | nil =>
    intro acc x hx
    rw [collect] at hx
    exact Or.inl hx
  | cons hd rest ih =>
    obtain ⟨p, t⟩ := hd
    intro acc x hx
    rw [collect] at hx
    by_cases hcont : acc.contains t = true
    · rw [if_pos hcont] at hx
      rcases ih acc x hx with h | h
      · exact Or.inl h
      · exact Or.inr (by simp [h])
    · rw [if_neg hcont] at hx
      by_cases hstop : (acc ++ [t]).length = req ∨ (acc ++ [t]).length = nt
      · rw [if_pos hstop] at hx
        rcases List.mem_append.mp hx with h | h
        · exact Or.inl h
        · exact Or.inr (by simp [List.mem_singleton.mp h])
      · rw [if_neg hstop] at hx
        rcases ih (acc ++ [t]) x hx with h | h
        · rcases List.mem_append.mp h with h' | h'
          · exact Or.inl h'
          · exact Or.inr (by simp [List.mem_singleton.mp h'])
        · exact Or.inr (by simp [h])


theorem ring_values_sub_keys {fh : Flexihash} (hinv : RingInv fh) :
    ∀ t ∈ fh.position_to_target.map Prod.snd,
      t ∈ fh.target_to_positions.map Prod.fst := by
  intro t ht
  obtain ⟨⟨p, t'⟩, hmem, rfl⟩ := List.mem_map.mp ht
  have hget : listGet fh.position_to_target p = some t' :=
    listGet_of_mem (ring_keys_nodup hinv.ring_sorted) hmem
  obtain ⟨ps, hps, _⟩ := hinv.ring_reg p t' hget
  exact mem_keys_of_listGet hps

theorem ringTargetCount_le {fh : Flexihash} (hinv : RingInv fh) :
    fh.ringTargetCount ≤ fh.target_to_positions.length := by
  have hsub : (fh.position_to_target.map Prod.snd).toFinset ⊆
      (fh.target_to_positions.map Prod.fst).toFinset := by
    intro x hx
    rw [List.mem_toFinset] at hx ⊢
    exact ring_values_sub_keys hinv x hx
  calc fh.ringTargetCount
      ≤ (fh.target_to_positions.map Prod.fst).toFinset.card :=
        Finset.card_le_card hsub
    _ = (fh.target_to_positions.map Prod.fst).length :=
        List.toFinset_card_of_nodup hinv.reg_nodup
    _ = fh.target_to_positions.length := List.length_map _ _

theorem rotation_newCount (l : List (Position × Target)) (o : Nat) :
    newCount [] (l.drop o ++ l.take o) = ((l.map Prod.snd).toFinset).card := by
  rw [newCount]
  simp only [List.toFinset_nil, Finset.sdiff_empty]
  have h1 : List.Perm (l.drop o ++ l.take o) (l.take o ++ l.drop o) :=
    List.perm_append_comm
  rw [List.take_append_drop] at h1
  congr 1
  exact List.toFinset_eq_of_perm _ _ (h1.map Prod.snd)

theorem ring_nil_of_reg_nil {fh : Flexihash} (hinv : RingInv fh)
    (h : fh.target_to_positions = []) : fh.position_to_target = [] := by
  cases hr : fh.position_to_target with
  | nil => rfl
  | cons e tl =>
    obtain ⟨p, t⟩ := e
    have hget : listGet fh.position_to_target p = some t := by
      rw [hr, listGet, if_pos rfl]
    obtain ⟨ps, hps, _⟩ := hinv.ring_reg p t hget
    rw [h, listGet] at hps
    exact absurd hps (by simp)

/-- Case analysis on `lookup_list` for a nonzero requested count, following
the source's three branches: empty registry, one-entry registry, and the
binary-search-plus-walk path. -/
theorem lookup_list_cases (fh : Flexihash) (r : Resource) (n : Nat) (hn : n ≠ 0) :
    (fh.target_to_positions = [] ∧ fh.lookup_list r n = .ok []) ∨
    (∃ k ps, fh.target_to_positions = [(k, ps)] ∧ fh.lookup_list r n = .ok [k]) ∨
    (2 ≤ fh.target_to_positions.length ∧
      fh.lookup_list r n = .ok (collect n fh.target_to_positions.length
        (fh.sorted_position_to_target.drop
          (lowerBound (hash fh.hasher r) fh.sorted_position_to_target) ++
         fh.sorted_position_to_target.take
          (lowerBound (hash fh.hasher r) fh.sorted_position_to_target)) [])) := by
  cases hreg : fh.target_to_positions with
  | nil =>
    refine Or.inl ⟨rfl, ?_⟩
    rw [Flexihash.lookup_list, if_neg hn, hreg]
  | cons e tl =>
    obtain ⟨k, ps⟩ := e
    cases htl : tl with
    | nil =>
      subst htl
      refine Or.inr (Or.inl ⟨k, ps, rfl, ?_⟩)
      rw [Flexihash.lookup_list, if_neg hn, hreg]
    | cons e2 tl2 =>
      subst htl
      refine Or.inr (Or.inr ⟨by simp, ?_⟩)
      rw [Flexihash.lookup_list, if_neg hn, hreg]

/-- Every target in a `lookup_list` result is a registry key. -/
theorem lookup_list_mem_keys {fh : Flexihash} (hinv : RingInv fh)
    {r : Resource} {n : Nat} {l : List Target}
    (h : fh.lookup_list r n = .ok l) {t : Target} (ht : t ∈ l) :
    t ∈ fh.target_to_positions.map Prod.fst := by
  by_cases hn : n = 0
  · rw [Flexihash.lookup_list, if_pos hn] at h
    exact absurd h (by simp)
  · rcases lookup_list_cases fh r n hn with ⟨hreg, hok⟩ | ⟨k, ps, hreg, hok⟩ | ⟨_, hok⟩
    · rw [h] at hok
      simp only [Except.ok.injEq] at hok
      subst hok
      exact absurd ht (by simp)
    · rw [h] at hok
      simp only [Except.ok.injEq] at hok
      subst hok
      rw [List.mem_singleton] at ht
      subst ht
      rw [hreg]
      simp
    · rw [h] at hok
      simp only [Except.ok.injEq] at hok
      subst hok
      rcases collect_mem _ _ _ [] t ht with hc | hc
      · exact absurd hc (by simp)
      · obtain ⟨⟨p, t'⟩, hmem, rfl⟩ := List.mem_map.mp hc
        have hmem' : (p, t') ∈ fh.position_to_target := by
          rw [← hinv.vec_eq]
          rcases List.mem_append.mp hmem with hd | hd
          · exact List.mem_of_mem_drop hd
          · exact List.mem_of_mem_take hd
        exact ring_values_sub_keys hinv t'
          (List.mem_map_of_mem Prod.snd hmem')

theorem st0_reachable : Reachable st0 :=
  .set_hasher _ (.set_replicas _ (.new zeroHash))

theorem s1_reachable : Reachable s1 :=
  .add_target "t1" 1 st0_reachable rfl

theorem s2c_reachable : Reachable s2c :=
  .add_target "t2" 1 s1_reachable rfl

theorem ghostRingFh_reachable : Reachable ghostRingFh :=
  .remove_target "t3" (.add_target "t3" 1 s2c_reachable rfl) rfl

theorem scenario5_reachable : Reachable scenario5 := by
  have h1 : Reachable (getOk (st0.add_target "t1" 1) st0) :=
    .add_target "t1" 1 st0_reachable rfl
  have h2 : Reachable (getOk (((getOk (st0.add_target "t1" 1) st0).set_hasher
      (.mock 20)).add_target "t2" 1) st0) :=
    .add_target "t2" 1 (.set_hasher _ h1) rfl
  have h3 := Reachable.add_target "t3" 1 (.set_hasher (.mock 30) h2) rfl
  have h4 := Reachable.add_target "t4" 1 (.set_hasher (.mock 40) h3) rfl
  have h5 := Reachable.add_target "t5" 1 (.set_hasher (.mock 50) h4) rfl
  exact .set_hasher (.mock 35) h5

/-!
## Claim theorems
-/

/-- C1: the spec demands that `remove_target` delete a registry-recorded
position from the ring index only if the ring index still maps it to the
target being removed.  The source deletes unconditionally: here `t1` and
`t2` both hash to position 10, the ring maps 10 to `t2` (last writer), yet
removing `t1` succeeds and deletes position 10, emptying the ring index
while `t2` is still registered — the behaviour the spec explicitly
forbids. -/
theorem C1_remove_clobbered_position_deleted :
    listGet s2c.position_to_target 10 = some "t2" ∧
    listGet s2c.target_to_positions "t1" = some [10] ∧
    s2c.remove_target "t1" = .ok s2cRemoved ∧
    s2cRemoved.position_to_target = [] ∧
    containsKey s2cRemoved.target_to_positions "t2" = true :=
  ⟨rfl, rfl, rfl, rfl, rfl⟩

/-- C2 counterexample: in `s2c` two targets are registered but `t2`'s
colliding replica overwrote `t1`'s only ring entry, so
`lookup_list("r", 2)` finds a single target — length 1, not
`min 2 2 = 2` as the claim states. -/
theorem C2_counterexample :
    s2c.target_to_positions.length = 2 ∧
    s2c.lookup_list "r" 2 = .ok ["t2"] ∧
    (["t2"] : List Target).length ≠ min 2 s2c.target_to_positions.length :=
  ⟨rfl, rfl, by decide⟩

/-- C2 (amended): for every reachable ring, resource and `n ≥ 1`,
`lookup_list` succeeds and the length of its result is `min n D`, where
`D` is the number of distinct targets occurring in the ring index —
except on the one-registered-target fast path, which returns length 1
without consulting the ring index.  (The claim's `min(n, number of
registered targets)` fails once a target's every replica is overwritten
by a collision, as the counterexample shows.) -/
theorem C2_lookup_list_length (fh : Flexihash) (r : Resource) (n : Nat)
    (hr : Reachable fh) (hn : 1 ≤ n) :
    ∃ l, fh.lookup_list r n = .ok l ∧
      l.length = if fh.target_to_positions.length = 1 then 1
        else min n fh.ringTargetCount := by
  have hinv := reachable_inv hr
  have hn0 : n ≠ 0 := by omega
  rcases lookup_list_cases fh r n hn0 with ⟨hreg, hok⟩ | ⟨k, ps, hreg, hok⟩ | ⟨hlen, hok⟩
  · refine ⟨[], hok, ?_⟩
    have hring := ring_nil_of_reg_nil hinv hreg
    rw [hreg]
    simp [Flexihash.ringTargetCount, hring]
  · refine ⟨[k], hok, ?_⟩
    rw [hreg]
    simp
  · have hne1 : ¬ fh.target_to_positions.length = 1 := by omega
    set o := lowerBound (hash fh.hasher r) fh.sorted_position_to_target with ho
    set rot := fh.sorted_position_to_target.drop o ++
      fh.sorted_position_to_target.take o with hrot
    have hcount : newCount [] rot = fh.ringTargetCount := by
      rw [hrot, hinv.vec_eq]
      exact rotation_newCount fh.position_to_target o
    have hb : ([] : List Target).length + newCount [] rot ≤
        fh.target_to_positions.length := by
      simp only [List.length_nil, Nat.zero_add]
      rw [hcount]
      exact ringTargetCount_le hinv
    have hlen0 : ([] : List Target).length < n := by
      simp only [List.length_nil]
      omega
    refine ⟨_, hok, ?_⟩
    rw [collect_length n fh.target_to_positions.length rot [] hlen0 hb, if_neg hne1]
    simp [hcount]

/-- C2 witness: the amended claim evaluated on the reachable five-target
wraparound ring with `n = 2`. -/
theorem C2_lookup_list_length_witness :
    ∃ l, scenario5.lookup_list "resource" 2 = .ok l ∧
      l.length = if scenario5.target_to_positions.length = 1 then 1
        else min 2 scenario5.ringTargetCount :=
  C2_lookup_list_length scenario5 "resource" 2 scenario5_reachable (by decide)

/-- C3: when `target` is not yet registered, `add_target(target, w)`
succeeds; it generates exactly `replicas * w` positions, the `i`-th being
the hash of `target` concatenated with the decimal rendering of `i`;
the registry records the full generated list under `target`; and the ring
index afterwards maps every generated position to `target` (overwriting
whatever was there — last-writer-wins) and agrees with the old ring index
everywhere else. -/
theorem C3_add_target_effect (fh : Flexihash) (t : Target) (w : Nat)
    (h : containsKey fh.target_to_positions t = false) :
    ∃ fh', fh.add_target t w = .ok fh' ∧
      ∃ positions : List Position,
        positions.length = fh.replicas * w ∧
        (∀ i, i < fh.replicas * w →
          positions[i]? = some (hash fh.hasher (t ++ toString i))) ∧
        listGet fh'.target_to_positions t = some positions ∧
        (∀ p, listGet fh'.position_to_target p =
          if p ∈ positions then some t else listGet fh.position_to_target p) := by
  have hc : ¬ (containsKey fh.target_to_positions t = true) := by simp [h]
  have hok : fh.add_target t w = .ok { fh with
      position_to_target :=
        ((List.range (fh.replicas * w)).map
          (fun i => hash fh.hasher (t ++ toString i))).foldl
          (fun m p => btreeInsert p t m) fh.position_to_target
      sorted_position_to_target :=
        ((List.range (fh.replicas * w)).map
          (fun i => hash fh.hasher (t ++ toString i))).foldl
          (fun m p => btreeInsert p t m) fh.position_to_target
      target_to_positions := hmInsert fh.target_to_positions t
        ((List.range (fh.replicas * w)).map
          (fun i => hash fh.hasher (t ++ toString i))) } := by
    rw [Flexihash.add_target, if_neg hc]
  refine ⟨_, hok,
    (List.range (fh.replicas * w)).map (fun i => hash fh.hasher (t ++ toString i)),
    by simp, ?_, ?_, ?_⟩
  · intro i hi
    simp [List.getElem?_range, hi]
  · rw [listGet_hmInsert, if_pos rfl]
  · intro p
    rw [listGet_foldl_btreeInsert]

/-- C3 witness: adding `"a"` to the fresh one-replica mock ring. -/
theorem C3_add_target_effect_witness :
    ∃ fh', st0.add_target "a" 1 = .ok fh' ∧
      ∃ positions : List Position,
        positions.length = st0.replicas * 1 ∧
        (∀ i, i < st0.replicas * 1 →
          positions[i]? = some (hash st0.hasher ("a" ++ toString i))) ∧
        listGet fh'.target_to_positions "a" = some positions ∧
        (∀ p, listGet fh'.position_to_target p =
          if p ∈ positions then some "a" else listGet st0.position_to_target p) :=
  C3_add_target_effect st0 "a" 1 rfl

/-- C4: adding a target that the registry already holds fails with the
duplicate-target panic naming that target.  The source raises the panic
before any mutation, which the pure embedding reflects: an error result
carries no new state, so the caller's ring index and registry are the
untouched originals. -/
theorem C4_add_duplicate_error (fh : Flexihash) (t : Target) (w : Nat)
    (h : containsKey fh.target_to_positions t = true) :
    fh.add_target t w = .error (.duplicateTarget t) := by
  rw [Flexihash.add_target, if_pos h]

/-- C4 witness: re-adding `"t1"` to the ring that already holds it. -/
theorem C4_add_duplicate_error_witness :
    s1.add_target "t1" 2 = .error (.duplicateTarget "t1") :=
  C4_add_duplicate_error s1 "t1" 2 rfl

/-- C5: removing a target absent from the registry fails with the
unknown-target panic naming that target.  As for C4, the source panics
before mutating anything, so the caller's state is unchanged. -/
theorem C5_remove_unknown_error (fh : Flexihash) (t : Target)
    (h : containsKey fh.target_to_positions t = false) :
    fh.remove_target t = .error (.unknownTarget t) := by
  have hg : listGet fh.target_to_positions t = none := by
    rw [containsKey] at h
    exact Option.not_isSome_iff_eq_none.mp (by simp [h])
  rw [Flexihash.remove_target, hg]

/-- C5 witness: removing `"not-there"` from the empty ring (mirrors the
source's `remove_target_fails_on_missing_target` test). -/
theorem C5_remove_unknown_error_witness :
    st0.remove_target "not-there" = .error (.unknownTarget "not-there") :=
  C5_remove_unknown_error st0 "not-there" rfl

/-- C6: with zero targets, `lookup_list(r, n)` for `n ≥ 1` returns the
empty list while `lookup(r)` fails with the empty-ring panic; and for
every ring state, a requested count of zero (the only `u32` value below
one) makes `lookup_list` fail with the invalid-count panic. -/
theorem C6_empty_and_zero_count (fh : Flexihash) (r : Resource) (n : Nat) :
    (fh.target_to_positions = [] → 1 ≤ n → fh.lookup_list r n = .ok []) ∧
    (fh.target_to_positions = [] → fh.lookup r = .error .emptyRing) ∧
    fh.lookup_list r 0 = .error .invalidCount := by
  have hempty : ∀ m, m ≠ 0 → fh.target_to_positions = [] →
      fh.lookup_list r m = .ok [] := by
    intro m hm hreg
    rcases lookup_list_cases fh r m hm with ⟨_, hok⟩ | ⟨k, ps, hreg', _⟩ | ⟨hlen, _⟩
    · exact hok
    · rw [hreg] at hreg'
      exact absurd hreg' (by simp)
    · rw [hreg] at hlen
      simp at hlen
  refine ⟨fun hreg hn => hempty n (by omega) hreg, fun hreg => ?_, ?_⟩
  · rw [Flexihash.lookup, hempty 1 (by omega) hreg]
    rfl
  · rw [Flexihash.lookup_list, if_pos rfl]

/-- C6 witness: the fresh empty ring with `n = 3`, and a zero count. -/
theorem C6_empty_and_zero_count_witness :
    st0.lookup_list "x" 3 = .ok [] ∧
    st0.lookup "x" = .error .emptyRing ∧
    st0.lookup_list "x" 0 = .error .invalidCount :=
  ⟨(C6_empty_and_zero_count st0 "x" 3).1 rfl (by decide),
   (C6_empty_and_zero_count st0 "x" 3).2.1 rfl,
   (C6_empty_and_zero_count st0 "x" 3).2.2⟩

/-- C7: when the registry holds exactly one entry, `lookup_list` returns
that single target for every resource and every `n ≥ 1`, whatever the
target's replica positions are; the result is the same under any
replacement hasher, witnessing that the resource is never hashed on this
fast path. -/
theorem C7_single_target_shortcut (fh : Flexihash) (t : Target)
    (ps : List Position) (r : Resource) (n : Nat)
    (hreg : fh.target_to_positions = [(t, ps)]) (hn : 1 ≤ n) :
    fh.lookup_list r n = .ok [t] ∧
    ∀ h : Hasher, (fh.set_hasher h).lookup_list r n = .ok [t] := by
  have main : ∀ g : Flexihash, g.target_to_positions = [(t, ps)] →
      g.lookup_list r n = .ok [t] := by
    intro g hg
    rcases lookup_list_cases g r n (by omega) with
      ⟨hreg', _⟩ | ⟨k, qs, hreg', hok⟩ | ⟨hlen, _⟩
    · rw [hg] at hreg'
      exact absurd hreg' (by simp)
    · rw [hg] at hreg'
      simp only [List.cons.injEq, Prod.mk.injEq] at hreg'
      obtain ⟨⟨hk, _⟩, _⟩ := hreg'
      rw [← hk] at hok
      exact hok
    · rw [hg] at hlen
      simp at hlen
  exact ⟨main fh hreg,
    fun h => main (fh.set_hasher h) (by simpa [Flexihash.set_hasher] using hreg)⟩

/-- C7 witness: the one-target ring (mirroring the source's
`get_multiple_targets_with_only_one_target` test, with `n = 5`). -/
theorem C7_single_target_shortcut_witness :
    s1.lookup_list "anything" 5 = .ok ["t1"] ∧
    ∀ h : Hasher, (s1.set_hasher h).lookup_list "anything" 5 = .ok ["t1"] :=
  C7_single_target_shortcut s1 "t1" [10] "anything" 5 rfl (by decide)

/-- C8: the wraparound scenario — replicas = 1, targets `t1..t5` at mock
positions `10,20,30,40,50` added in that order, hasher then pinned to 35 —
yields `lookup_list("resource", 4) = ["t4","t5","t1","t2"]`: the walk
starts at the first position `≥ 35` and wraps past 50 to 10. -/
theorem C8_wraparound_scenario :
    scenario5.lookup_list "resource" 4 = .ok ["t4", "t5", "t1", "t2"] := rfl

/-- C9 counterexample: in `ghostRingFh` two targets are registered (so
`get_all_targets` is nonempty) yet `lookup` fails with the empty-ring
panic instead of returning a member — every ring entry of the registered
targets was overwritten by `t3`'s colliding replica and then deleted with
it. -/
theorem C9_counterexample :
    ghostRingFh.target_to_positions.length = 2 ∧
    ghostRingFh.lookup "r" = .error .emptyRing :=
  ⟨rfl, rfl⟩

/-- C9 (amended): whenever `lookup` returns a target (it can fail even
with registered targets, as the counterexample shows), that target is a
member of `get_all_targets()`; and every target stored as a value of the
ring index is a key of the registry — the invariant preserved by
`add_target` and `remove_target` (quantified here over all reachable
states). -/
theorem C9_lookup_valid (fh : Flexihash) (hr : Reachable fh) (r : Resource) :
    (∀ t, fh.lookup r = .ok t → t ∈ fh.get_all_targets) ∧
    (∀ p t, listGet fh.position_to_target p = some t →
      containsKey fh.target_to_positions t = true) := by
  have hinv := reachable_inv hr
  constructor
  · intro t hlk
    rw [Flexihash.lookup] at hlk
    cases hll : fh.lookup_list r 1 with
    | error e =>
      rw [hll] at hlk
      exact absurd hlk (by simp)
    | ok l =>
      rw [hll] at hlk
      cases l with
      | nil => exact absurd hlk (by simp)
      | cons a as =>
        have ha : a = t := by simpa using hlk
        subst ha
        have hkeys := lookup_list_mem_keys hinv hll (List.mem_cons_self a as)
        rw [Flexihash.get_all_targets]
        exact (List.mem_insertionSort (fun a b => a ≤ b)).mpr hkeys
  · intro p t hget
    obtain ⟨ps, hps, _⟩ := hinv.ring_reg p t hget
    rw [containsKey_iff]
    exact mem_keys_of_listGet hps

/-- C9 witness: the amended claim on the reachable five-target ring. -/
theorem C9_lookup_valid_witness :
    (∀ t, scenario5.lookup "resource" = .ok t → t ∈ scenario5.get_all_targets) ∧
    (∀ p t, listGet scenario5.position_to_target p = some t →
      containsKey scenario5.target_to_positions t = true) :=
  C9_lookup_valid scenario5 scenario5_reachable "resource"

/-- C10: after every public operation the sorted vector read by
`lookup_list` equals the ring index (whose model is its own ascending
enumeration), and the ring index's positions are strictly increasing —
so the vector is exactly the ring index's entries in ascending position
order, and the two structures never disagree when a lookup reads them. -/
theorem C10_sorted_vector_refinement (fh : Flexihash) (h : Reachable fh) :
    fh.sorted_position_to_target = fh.position_to_target ∧
    RingSorted fh.position_to_target :=
  ⟨(reachable_inv h).vec_eq, (reachable_inv h).ring_sorted⟩

/-- C10 witness: the refinement on the reachable five-target ring. -/
theorem C10_sorted_vector_refinement_witness :
    scenario5.sorted_position_to_target = scenario5.position_to_target ∧
    RingSorted scenario5.position_to_target :=
  C10_sorted_vector_refinement scenario5 scenario5_reachable
